import Mathlib

/-
Verification of the control execution result tree of the steampipe repository,
shallowly embedded from src/control/controlexecute/result_group.go.

The embedding models:
- StatusSummary (controlstatus.StatusSummary): five counters, field names as used
  by ResultGroup.updateSummary (Ok, Alarm, Info, Skip, Error).
- The ResultGroup tree with its aggregation operations updateSummary,
  updateSeverityCounts, addDuration and addDimensionKeys. Each of these Go
  methods mutates the receiving group under its lock and then recurses to the
  parent, so one call mutates exactly the nodes on the path from the owning
  group up to the root. We model the tree functionally and a call as a
  transformation applied at every node along a root-to-owner path.
- Tree construction (NewRootResultGroup, NewResultGroup, ControlRunCount) and
  the lookup functions (GetGroupByName, GetChildGroupByName,
  GetControlRunByName).
- The per-run dispatch decision chain of ResultGroup.execute, the deferred
  recover-and-release discipline of the dispatched goroutine, and the
  lock-acquisition traces of the upward aggregation chain.
- Go duration arithmetic: time.Duration is int64 nanoseconds, Round is
  modelled bit-faithfully including the overflow clamps.
-/

/-- StatusSummary is the fixed-shape counter record from controlstatus, with the
five fields read and written by ResultGroup.updateSummary. -/
structure StatusSummary where
  ok : Nat
  alarm : Nat
  info : Nat
  skip : Nat
  error : Nat
  deriving DecidableEq, Repr

/-- The all-zero summary, the value Go gives a fresh StatusSummary. -/
def StatusSummary.zero : StatusSummary := ⟨0, 0, 0, 0, 0⟩

/-- Field-wise addition of summaries, as performed line by line in
ResultGroup.updateSummary and ResultGroup.updateSeverityCounts. -/
def StatusSummary.add (a b : StatusSummary) : StatusSummary :=
  ⟨a.ok + b.ok, a.alarm + b.alarm, a.info + b.info, a.skip + b.skip, a.error + b.error⟩

instance : Zero StatusSummary := ⟨StatusSummary.zero⟩

instance : Add StatusSummary := ⟨StatusSummary.add⟩

theorem StatusSummary.add_def (a b : StatusSummary) :
    a + b = ⟨a.ok + b.ok, a.alarm + b.alarm, a.info + b.info, a.skip + b.skip,
      a.error + b.error⟩ := rfl

theorem StatusSummary.zero_def : (0 : StatusSummary) = ⟨0, 0, 0, 0, 0⟩ := rfl

instance : AddCommMonoid StatusSummary where
  add_assoc a b c := by
    cases a; cases b; cases c
    simp only [StatusSummary.add_def, StatusSummary.mk.injEq]
    omega
  zero_add a := by
    cases a
    simp only [StatusSummary.add_def, StatusSummary.zero_def, StatusSummary.mk.injEq]
    omega
  add_zero a := by
    cases a
    simp only [StatusSummary.add_def, StatusSummary.zero_def, StatusSummary.mk.injEq]
    omega
  add_comm a b := by
    cases a; cases b
    simp only [StatusSummary.add_def, StatusSummary.mk.injEq]
    omega
  nsmul := nsmulRec

/-- GTree is the shape shared by the aggregation state of a ResultGroup tree:
each node holds a mutable aggregate value of type a (for example the
Summary.Status counter, or the DimensionKeys list), the static list of
contributions of its direct ControlRuns (type b, fixed once execution of a run
completes), and the ordered child groups. -/
inductive GTree (a b : Type) where
  | mk (val : a) (runs : List b) (children : List (GTree a b))

/-- Aggregate value currently stored at the node. -/
def GTree.val {a b : Type} : GTree a b → a
  | .mk v _ _ => v

/-- Contributions of the direct ControlRuns of the node. -/
def GTree.runs {a b : Type} : GTree a b → List b
  | .mk _ rs _ => rs

/-- Ordered child result groups of the node. -/
def GTree.children {a b : Type} : GTree a b → List (GTree a b)
  | .mk _ _ cs => cs

/-- Replace the element at an index of a list by applying a function to it;
out-of-range indices leave the list unchanged. -/
def modifyIdx {a : Type} (f : a → a) : Nat → List a → List a
  | _, [] => []
  | 0, x :: xs => f x :: xs
  | n + 1, x :: xs => x :: modifyIdx f n xs

/-- Node reached from a tree by following a list of child indices. -/
def nodeAt {a b : Type} : List Nat → GTree a b → Option (GTree a b)
  | [], t => some t
  | i :: p, .mk _ _ cs =>
    match cs[i]? with
    | some c => nodeAt p c
    | none => none

/-- Aggregate value stored at the node reached by a path. -/
def valAt {a b : Type} (p : List Nat) (t : GTree a b) : Option a :=
  (nodeAt p t).map GTree.val

/-- Model of the lock-mutate-recurse-to-parent chain shared by updateSummary,
updateSeverityCounts, addDuration and addDimensionKeys: the Go method is called
on the group owning the finished run and recurses through the Parent pointers,
so exactly the nodes on the path from the root down to the owner have their
aggregate mutated, each under its own lock. Here the same mutation g is applied
to the value of every node along the path p. -/
def applyAt {a b : Type} (g : a → a) : List Nat → GTree a b → GTree a b
  | [], .mk v rs cs => .mk (g v) rs cs
  | i :: p, .mk v rs cs => .mk (g v) rs (modifyIdx (applyAt g p) i cs)

/-- Boolean test that the first list is a prefix of the second. -/
def isPref : List Nat → List Nat → Bool
  | [], _ => true
  | _ :: _, [] => false
  | i :: q, j :: p => i == j && isPref q p

theorem modifyIdx_getElem {a : Type} (f : a → a) (j i : Nat) (l : List a) :
    (modifyIdx f j l)[i]? = if j = i then (l[i]?).map f else l[i]? := by
  induction j generalizing i l with
  | zero =>
    cases l with
    | nil => simp [modifyIdx]
    | cons x xs => cases i <;> simp [modifyIdx]
  | succ j ih =>
    cases l with
    | nil => simp [modifyIdx]
    | cons x xs =>
      cases i with
      | zero => simp [modifyIdx]
      | succ i => simpa [modifyIdx, Nat.succ_inj] using ih i xs

theorem valAt_applyAt {a b : Type} (g : a → a) (q p : List Nat) (t : GTree a b) :
    valAt q (applyAt g p t) =
      if isPref q p then (valAt q t).map g else valAt q t := by
  induction q generalizing p t with
  | nil =>
    cases t with
    | mk v rs cs =>
      cases p <;> simp [valAt, nodeAt, applyAt, isPref, GTree.val]
  | cons i q ih =>
    cases t with
    | mk v rs cs =>
      cases p with
      | nil =>
        simp [valAt, nodeAt, applyAt, isPref]
      | cons j p =>
        simp only [applyAt, valAt, nodeAt]
        rw [modifyIdx_getElem]
        by_cases hji : j = i
        · subst hji
          have hpr : isPref (j :: q) (j :: p) = isPref q p := by simp [isPref]
          rw [if_pos rfl, hpr]
          cases hcs : cs[j]? with
          | none => cases hb : isPref q p <;> simp
          | some c =>
            have := ih p c
            simp only [valAt] at this
            simpa using this
        · have hpr : isPref (i :: q) (j :: p) = false := by
            have : (i == j) = false := by
              simp only [beq_eq_false_iff_ne, ne_eq]
              exact fun h => hji h.symm
            simp [isPref, this]
          rw [if_neg hji, hpr]
          simp

theorem runs_nodeAt_applyAt {a b : Type} (g : a → a) (q p : List Nat) (t : GTree a b) :
    (nodeAt q (applyAt g p t)).map GTree.runs = (nodeAt q t).map GTree.runs := by
  induction q generalizing p t with
  | nil =>
    cases t with
    | mk v rs cs => cases p <;> simp [nodeAt, applyAt, GTree.runs]
  | cons i q ih =>
    cases t with
    | mk v rs cs =>
      cases p with
      | nil => simp [nodeAt, applyAt]
      | cons j p =>
        simp only [applyAt, nodeAt]
        rw [modifyIdx_getElem]
        by_cases hji : j = i
        · subst hji
          cases hcs : cs[j]? with
          | none => simp
          | some c => simpa using ih p c
        · simp only [if_neg hji]

theorem childlen_nodeAt_applyAt {a b : Type} (g : a → a) (q p : List Nat) (t : GTree a b) :
    (nodeAt q (applyAt g p t)).map (fun n => n.children.length) =
      (nodeAt q t).map (fun n => n.children.length) := by
  induction q generalizing p t with
  | nil =>
    cases t with
    | mk v rs cs =>
      cases p with
      | nil => simp [nodeAt, applyAt, GTree.children]
      | cons j p =>
        simp only [nodeAt, applyAt, Option.map, GTree.children]
        congr 1
        induction cs generalizing j with
        | nil => simp [modifyIdx]
        | cons c cs ihc =>
          cases j with
          | zero => simp [modifyIdx]
          | succ j => simpa [modifyIdx] using ihc j
  | cons i q ih =>
    cases t with
    | mk v rs cs =>
      cases p with
      | nil => simp [nodeAt, applyAt]
      | cons j p =>
        simp only [applyAt, nodeAt]
        rw [modifyIdx_getElem]
        by_cases hji : j = i
        · subst hji
          cases hcs : cs[j]? with
          | none => simp
          | some c => simpa using ih p c
        · simp only [if_neg hji]

theorem nodeAt_append {a b : Type} (q r : List Nat) (t : GTree a b) :
    nodeAt (q ++ r) t = (nodeAt q t).bind (nodeAt r) := by
  induction q generalizing t with
  | nil => simp [nodeAt]
  | cons i q ih =>
    cases t with
    | mk v rs cs =>
      simp only [List.cons_append, nodeAt]
      cases cs[i]? with
      | none => simp
      | some c => simpa using ih c

mutual

/-- Enumeration of every ControlRun contribution in the subtree, labelled with
the path (from the given starting path) of the group that owns the run. One
entry per run: this is the multiset of updates that reach the aggregation
chain exactly once each, as each run finishes. -/
def runEnum {a b : Type} (pre : List Nat) : GTree a b → List (List Nat × b)
  | .mk _ rs cs => rs.map (fun s => (pre, s)) ++ runEnumList pre 0 cs

/-- List version of runEnum: enumerates the children starting at a child index. -/
def runEnumList {a b : Type} (pre : List Nat) (i : Nat) : List (GTree a b) → List (List Nat × b)
  | [] => []
  | c :: cs => runEnum (pre ++ [i]) c ++ runEnumList pre (i + 1) cs

end

mutual

/-- All run contributions in the subtree, direct runs first then children in
order. -/
def subtreeRuns {a b : Type} : GTree a b → List b
  | .mk _ rs cs => rs ++ subtreeRunsList cs

/-- List version of subtreeRuns. -/
def subtreeRunsList {a b : Type} : List (GTree a b) → List b
  | [] => []
  | c :: cs => subtreeRuns c ++ subtreeRunsList cs

end

mutual

/-- Boolean check that the aggregate value of every node of the tree satisfies
a predicate (used to state that the freshly built tree holds zero summaries and
empty key lists, as NewGroupSummary and the Go zero values provide). -/
def allVals {a b : Type} (pr : a → Bool) : GTree a b → Bool
  | .mk v _ cs => pr v && allValsList pr cs

/-- List version of allVals. -/
def allValsList {a b : Type} (pr : a → Bool) : List (GTree a b) → Bool
  | [] => true
  | c :: cs => allVals pr c && allValsList pr cs

end

theorem isPref_append_same (x y z : List Nat) :
    isPref (x ++ y) (x ++ z) = isPref y z := by
  induction x with
  | nil => simp
  | cons i x ih => simpa [isPref] using ih

theorem isPref_self_append (x s : List Nat) : isPref x (x ++ s) = true := by
  have := isPref_append_same x [] s
  simpa using this

theorem isPref_append_longer (x : List Nat) (a : Nat) (y : List Nat) :
    isPref (x ++ a :: y) x = false := by
  induction x with
  | nil => simp [isPref]
  | cons i x ih => simpa [isPref] using ih

/-- Subtree runs of an optional node; empty when the node does not exist. -/
def optSubtreeRuns {a b : Type} : Option (GTree a b) → List b
  | some sub => subtreeRuns sub
  | none => []

mutual

theorem runEnum_path_shape {a b : Type} (pre : List Nat) (t : GTree a b) :
    ∀ e ∈ runEnum pre t, ∃ suf, e.1 = pre ++ suf :=
  match t with
  | .mk v rs cs => by
    intro e he
    simp only [runEnum, List.mem_append, List.mem_map] at he
    rcases he with ⟨s, _, rfl⟩ | he
    · exact ⟨[], by simp⟩
    · obtain ⟨k, suf, _, hpath⟩ := runEnumList_path_shape pre 0 cs e he
      exact ⟨k :: suf, hpath⟩

theorem runEnumList_path_shape {a b : Type} (pre : List Nat) (i : Nat)
    (cs : List (GTree a b)) :
    ∀ e ∈ runEnumList pre i cs, ∃ k suf, i ≤ k ∧ e.1 = pre ++ k :: suf :=
  match cs with
  | [] => by intro e he; simp [runEnumList] at he
  | c :: cs => by
    intro e he
    simp only [runEnumList, List.mem_append] at he
    rcases he with he | he
    · obtain ⟨suf, hsuf⟩ := runEnum_path_shape (pre ++ [i]) c e he
      exact ⟨i, suf, Nat.le_refl i, by simpa using hsuf⟩
    · obtain ⟨k, suf, hk, hpath⟩ := runEnumList_path_shape pre (i + 1) cs e he
      exact ⟨k, suf, by omega, hpath⟩

end

mutual

theorem runEnum_map_snd {a b : Type} (pre : List Nat) (t : GTree a b) :
    (runEnum pre t).map Prod.snd = subtreeRuns t :=
  match t with
  | .mk v rs cs => by
    simp only [runEnum, subtreeRuns, List.map_append, List.map_map]
    congr 1
    · simp
    · exact runEnumList_map_snd pre 0 cs

theorem runEnumList_map_snd {a b : Type} (pre : List Nat) (i : Nat)
    (cs : List (GTree a b)) :
    (runEnumList pre i cs).map Prod.snd = subtreeRunsList cs :=
  match cs with
  | [] => by simp [runEnumList, subtreeRunsList]
  | c :: cs => by
    simp only [runEnumList, subtreeRunsList, List.map_append]
    rw [runEnum_map_snd (pre ++ [i]) c, runEnumList_map_snd pre (i + 1) cs]

end

theorem runEnumList_filter_target {a b : Type} (i : Nat) (q : List Nat)
    (IH : ∀ (pre : List Nat) (t : GTree a b),
      ((runEnum pre t).filter (fun e => isPref (pre ++ q) e.1)).map Prod.snd =
        optSubtreeRuns (nodeAt q t)) :
    ∀ (j : Nat) (cs : List (GTree a b)) (pre : List Nat),
      ((runEnumList pre j cs).filter (fun e => isPref (pre ++ i :: q) e.1)).map Prod.snd =
        if j ≤ i then
          (match cs[i - j]? with
           | some c => optSubtreeRuns (nodeAt q c)
           | none => [])
        else [] := by
  intro j cs
  induction cs generalizing j with
  | nil =>
    intro pre
    simp only [runEnumList, List.filter_nil, List.map_nil, List.getElem?_nil]
    split <;> rfl
  | cons c cs ihc =>
    intro pre
    simp only [runEnumList, List.filter_append, List.map_append]
    by_cases hji : j = i
    · subst hji
      have hfirst :
          (runEnum (pre ++ [j]) c).filter (fun e => isPref (pre ++ j :: q) e.1) =
            (runEnum (pre ++ [j]) c).filter (fun e => isPref ((pre ++ [j]) ++ q) e.1) := by
        have : pre ++ j :: q = (pre ++ [j]) ++ q := by simp
        rw [this]
      have hsecond :
          (runEnumList pre (j + 1) cs).filter (fun e => isPref (pre ++ j :: q) e.1) = [] := by
        apply List.filter_eq_nil_iff.mpr
        intro e he
        obtain ⟨k, suf, hk, hpath⟩ := runEnumList_path_shape pre (j + 1) cs e he
        have hkj : (j == k) = false := by
          simp only [beq_eq_false_iff_ne, ne_eq]
          omega
        simp [hpath, isPref_append_same, isPref, hkj]
      rw [hfirst, hsecond, IH (pre ++ [j]) c]
      simp [optSubtreeRuns]
    · have hfirst :
          (runEnum (pre ++ [j]) c).filter (fun e => isPref (pre ++ i :: q) e.1) = [] := by
        apply List.filter_eq_nil_iff.mpr
        intro e he
        obtain ⟨suf, hpath⟩ := runEnum_path_shape (pre ++ [j]) c e he
        have hpath2 : e.1 = pre ++ j :: suf := by simpa using hpath
        have hij : (i == j) = false := by
          simp only [beq_eq_false_iff_ne, ne_eq]
          exact fun h => hji h.symm
        simp [hpath2, isPref_append_same, isPref, hij]
      rw [hfirst, ihc (j + 1)]
      by_cases hle : j + 1 ≤ i
      · have hle2 : j ≤ i := by omega
        rw [if_pos hle, if_pos hle2]
        have hidx : i - j = (i - (j + 1)) + 1 := by omega
        rw [hidx]
        simp
      · have hle2 : ¬ j ≤ i := by omega
        rw [if_neg hle, if_neg hle2]
        simp

theorem runEnum_filter_nodeAt {a b : Type} :
    ∀ (q pre : List Nat) (t : GTree a b),
      ((runEnum pre t).filter (fun e => isPref (pre ++ q) e.1)).map Prod.snd =
        optSubtreeRuns (nodeAt q t)
  | [], pre, t => by
    rw [List.append_nil]
    have hall : ∀ e ∈ runEnum pre t, isPref pre e.1 = true := by
      intro e he
      obtain ⟨suf, hsuf⟩ := runEnum_path_shape pre t e he
      simp [hsuf, isPref_self_append]
    rw [List.filter_eq_self.mpr hall]
    simp [optSubtreeRuns, nodeAt, runEnum_map_snd]
  | i :: q, pre, t => by
    cases t with
    | mk v rs cs =>
      simp only [runEnum, List.filter_append, List.map_append]
      have h1 : (rs.map (fun s => (pre, s))).filter
          (fun e => isPref (pre ++ i :: q) e.1) = [] := by
        apply List.filter_eq_nil_iff.mpr
        intro e he
        simp only [List.mem_map] at he
        obtain ⟨s, _, rfl⟩ := he
        simp [isPref_append_longer]
      have h2 := runEnumList_filter_target i q
        (fun pre t => runEnum_filter_nodeAt q pre t) 0 cs pre
      simp only [Nat.zero_le, if_pos, Nat.sub_zero] at h2
      rw [h1, h2]
      simp only [List.map_nil, List.nil_append, nodeAt]
      cases hcs : cs[i]? <;> simp [optSubtreeRuns]

/-- SummaryTree is the execution tree seen through the Summary.Status
aggregate: each node carries its current GroupSummary.Status counter and the
final StatusSummary of each of its direct ControlRuns. -/
abbrev SummaryTree := GTree StatusSummary StatusSummary

/-- Model of ResultGroup.updateSummary: under the updateLock the five counters
of the run summary are added field-wise into Summary.Status of the group, and
the method then recurses to the parent. One call therefore performs this
addition at every node on the root-to-owner path p. -/
def updateSummary (summary : StatusSummary) (p : List Nat) (t : SummaryTree) : SummaryTree :=
  applyAt (fun st =>
    { st with
      skip := st.skip + summary.skip
      alarm := st.alarm + summary.alarm
      info := st.info + summary.info
      ok := st.ok + summary.ok
      error := st.error + summary.error }) p t

theorem updateSummary_eq (summary : StatusSummary) (p : List Nat) (t : SummaryTree) :
    updateSummary summary p t = applyAt (fun st => st + summary) p t := rfl

/-- State of the summary tree after a list of completed runs, each given as the
path of its owning group and its StatusSummary, have pushed their summaries up
the parent chain, in completion order. -/
def runUpdates (t : SummaryTree) (us : List (List Nat × StatusSummary)) : SummaryTree :=
  us.foldl (fun acc u => updateSummary u.2 u.1 acc) t

theorem valAt_runUpdates (q : List Nat) (t : SummaryTree)
    (us : List (List Nat × StatusSummary)) :
    valAt q (runUpdates t us) =
      (valAt q t).map
        (fun v => v + ((us.filter (fun u => isPref q u.1)).map Prod.snd).sum) := by
  induction us generalizing t with
  | nil =>
    simp only [runUpdates, List.foldl_nil, List.filter_nil, List.map_nil, List.sum_nil]
    cases valAt q t <;> simp
  | cons u us ih =>
    have hstep : runUpdates t (u :: us) = runUpdates (updateSummary u.2 u.1 t) us := rfl
    rw [hstep, ih, updateSummary_eq, valAt_applyAt]
    by_cases hp : isPref q u.1
    · rw [if_pos hp]
      have hfil : (u :: us).filter (fun w => isPref q w.1) =
          u :: us.filter (fun w => isPref q w.1) := by
        simp [List.filter_cons, hp]
      rw [hfil]
      cases valAt q t with
      | none => simp
      | some v => simp [add_assoc]
    · rw [if_neg hp]
      have hfil : (u :: us).filter (fun w => isPref q w.1) =
          us.filter (fun w => isPref q w.1) := by
        simp [List.filter_cons, hp]
      rw [hfil]

theorem runs_nodeAt_runUpdates (q : List Nat) (t : SummaryTree)
    (us : List (List Nat × StatusSummary)) :
    (nodeAt q (runUpdates t us)).map GTree.runs = (nodeAt q t).map GTree.runs := by
  induction us generalizing t with
  | nil => rfl
  | cons u us ih =>
    have hstep : runUpdates t (u :: us) = runUpdates (updateSummary u.2 u.1 t) us := rfl
    rw [hstep, ih, updateSummary_eq, runs_nodeAt_applyAt]

theorem childlen_nodeAt_runUpdates (q : List Nat) (t : SummaryTree)
    (us : List (List Nat × StatusSummary)) :
    (nodeAt q (runUpdates t us)).map (fun n => n.children.length) =
      (nodeAt q t).map (fun n => n.children.length) := by
  induction us generalizing t with
  | nil => rfl
  | cons u us ih =>
    have hstep : runUpdates t (u :: us) = runUpdates (updateSummary u.2 u.1 t) us := rfl
    rw [hstep, ih, updateSummary_eq, childlen_nodeAt_applyAt]

theorem allValsList_mem {a b : Type} (pr : a → Bool) (cs : List (GTree a b))
    (h : allValsList pr cs = true) (c : GTree a b) (hc : c ∈ cs) :
    allVals pr c = true := by
  induction cs with
  | nil => cases hc
  | cons x xs ih =>
    simp only [allValsList, Bool.and_eq_true] at h
    rcases List.mem_cons.mp hc with rfl | hc
    · exact h.1
    · exact ih h.2 hc

theorem allVals_nodeAt {a b : Type} (pr : a → Bool) (q : List Nat) (t : GTree a b)
    (h : allVals pr t = true) (g : GTree a b) (hg : nodeAt q t = some g) :
    pr g.val = true := by
  induction q generalizing t with
  | nil =>
    cases t with
    | mk v rs cs =>
      simp only [nodeAt, Option.some.injEq] at hg
      subst hg
      simp only [allVals, Bool.and_eq_true] at h
      exact h.1
  | cons i q ih =>
    cases t with
    | mk v rs cs =>
      simp only [nodeAt] at hg
      cases hcs : cs[i]? with
      | none => rw [hcs] at hg; cases hg
      | some c =>
        rw [hcs] at hg
        simp only [allVals, Bool.and_eq_true] at h
        exact ih c (allValsList_mem pr cs h.2 c (List.getElem?_mem hcs)) hg

theorem nodeAt_child {a b : Type} (q : List Nat) (i : Nat) (t g : GTree a b)
    (h : nodeAt q t = some g) :
    nodeAt (q ++ [i]) t = g.children[i]? := by
  rw [nodeAt_append, h]
  show nodeAt [i] g = g.children[i]?
  cases g with
  | mk v rs cs =>
    cases hcs : cs[i]? <;> simp [nodeAt, GTree.children, hcs]

theorem subtreeRunsList_sum {a b : Type} [AddCommMonoid b] (cs : List (GTree a b)) :
    (subtreeRunsList cs).sum = (cs.map (fun c => (subtreeRuns c).sum)).sum := by
  induction cs with
  | nil => simp [subtreeRunsList]
  | cons c cs ih => simp [subtreeRunsList, ih]

theorem val_nodeAt_runUpdates_sum (t : SummaryTree)
    (hinit : allVals (fun v => v == StatusSummary.zero) t = true)
    (us : List (List Nat × StatusSummary))
    (hperm : us.Perm (runEnum [] t))
    (q : List Nat) (g : SummaryTree) (hq : nodeAt q (runUpdates t us) = some g)
    (gt : SummaryTree) (ht : nodeAt q t = some gt) :
    g.val = (subtreeRuns gt).sum := by
  have hval : valAt q (runUpdates t us) = some g.val := by
    simp [valAt, hq]
  rw [valAt_runUpdates] at hval
  have hvt : valAt q t = some gt.val := by simp [valAt, ht]
  rw [hvt] at hval
  have hval2 : gt.val + ((us.filter (fun u => isPref q u.1)).map Prod.snd).sum = g.val :=
    Option.some.inj hval
  have hzero : gt.val = StatusSummary.zero := by
    have := allVals_nodeAt (fun v => v == StatusSummary.zero) q t hinit gt ht
    simpa using this
  have hS : ((us.filter (fun u => isPref q u.1)).map Prod.snd).sum =
      (((runEnum [] t).filter (fun u => isPref q u.1)).map Prod.snd).sum :=
    ((hperm.filter (fun u => isPref q u.1)).map Prod.snd).sum_eq
  have hC := runEnum_filter_nodeAt q [] t
  simp only [List.nil_append, ht, optSubtreeRuns] at hC
  rw [← hval2, hzero, hS, hC]
  exact zero_add ((subtreeRuns gt).sum)

/-- C1: for every freshly built execution tree (every GroupSummary.Status is
zero, as NewGroupSummary initializes it) and every completion order in which
each finished ControlRun pushes its StatusSummary up the parent chain exactly
once (the update list is a permutation of the run enumeration, one entry per
run, in any order), every ResultGroup of the quiescent tree satisfies:
Summary.Status equals the field-wise sum of the StatusSummaries of its direct
ControlRuns plus the Summary.Status of its direct child ResultGroups. -/
theorem updateSummary_quiescence_law (t : SummaryTree)
    (hinit : allVals (fun v => v == StatusSummary.zero) t = true)
    (us : List (List Nat × StatusSummary))
    (hperm : us.Perm (runEnum [] t))
    (q : List Nat) (g : SummaryTree)
    (hq : nodeAt q (runUpdates t us) = some g) :
    g.val = g.runs.sum + (g.children.map GTree.val).sum := by
  have hrt := runs_nodeAt_runUpdates q t us
  cases ht : nodeAt q t with
  | none =>
    rw [hq, ht] at hrt
    simp at hrt
  | some gt =>
    have hruns : g.runs = gt.runs := by
      rw [hq, ht] at hrt
      exact Option.some.inj hrt
    have hlen : g.children.length = gt.children.length := by
      have h := childlen_nodeAt_runUpdates q t us
      rw [hq, ht] at h
      exact Option.some.inj h
    have hval := val_nodeAt_runUpdates_sum t hinit us hperm q g hq gt ht
    have hchild : g.children.map GTree.val =
        gt.children.map (fun c => (subtreeRuns c).sum) := by
      apply List.ext_getElem
      · simp [hlen]
      · intro i h1 h2
        simp only [List.getElem_map]
        have hi : i < g.children.length := by simpa using h1
        have hi2 : i < gt.children.length := by omega
        have hgi : nodeAt (q ++ [i]) (runUpdates t us) = some (g.children[i]) := by
          rw [nodeAt_child q i _ g hq]
          exact List.getElem?_eq_getElem hi
        have hti : nodeAt (q ++ [i]) t = some (gt.children[i]) := by
          rw [nodeAt_child q i t gt ht]
          exact List.getElem?_eq_getElem hi2
        exact val_nodeAt_runUpdates_sum t hinit us hperm (q ++ [i]) _ hgi _ hti
    rw [hval, hruns, hchild, ← subtreeRunsList_sum]
    cases gt with
    | mk v rs cs =>
      simp [subtreeRuns, GTree.runs, GTree.children, List.sum_append]

/-- Concrete two-level tree for the C1 witness: a root group with one direct
run producing one ok row, and one child group with one direct run producing
one alarm row. -/
def c1tree : SummaryTree :=
  .mk StatusSummary.zero [⟨1, 0, 0, 0, 0⟩] [.mk StatusSummary.zero [⟨0, 1, 0, 0, 0⟩] []]

/-- Completion order for the C1 witness: the child run finishes first, that is,
in the opposite order to the enumeration order. -/
def c1updates : List (List Nat × StatusSummary) :=
  [([0], ⟨0, 1, 0, 0, 0⟩), ([], ⟨1, 0, 0, 0, 0⟩)]

/-- Quiescent state of the C1 witness tree. -/
def c1final : SummaryTree :=
  .mk ⟨1, 1, 0, 0, 0⟩ [⟨1, 0, 0, 0, 0⟩] [.mk ⟨0, 1, 0, 0, 0⟩ [⟨0, 1, 0, 0, 0⟩] []]

/-- Witness for C1: the hypotheses hold at the concrete tree and scrambled
completion order, and the law follows by the theorem applied there. -/
theorem updateSummary_quiescence_law_witness :
    (allVals (fun v => v == StatusSummary.zero) c1tree = true ∧
      c1updates.Perm (runEnum [] c1tree) ∧
      nodeAt [] (runUpdates c1tree c1updates) = some c1final) ∧
    c1final.val = c1final.runs.sum + (c1final.children.map GTree.val).sum :=
  ⟨⟨by decide, by decide, by rfl⟩,
    updateSummary_quiescence_law c1tree (by decide) c1updates (by decide) [] c1final (by rfl)⟩

/-- Lexicographic comparison of character lists, mirroring the byte-wise string
order used by Go sort.Strings (identical on the ASCII keys involved here). -/
def charLeb : List Char → List Char → Bool
  | [], _ => true
  | _ :: _, [] => false
  | a :: as, b :: bs =>
    if a < b then true
    else if b < a then false
    else charLeb as bs

/-- Go string order from charLeb. -/
def strLeb (x y : String) : Bool := charLeb x.data y.data

theorem charLeb_cons (a b : Char) (as bs : List Char) :
    charLeb (a :: as) (b :: bs) = true ↔
      a < b ∨ (a = b ∧ charLeb as bs = true) := by
  simp only [charLeb]
  split_ifs with h1 h2
  · simp [h1]
  · have hne : a ≠ b := ne_of_gt h2
    simp [h1, hne]
  · have heq : a = b := le_antisymm (le_of_not_lt h2) (le_of_not_lt h1)
    simp [h1, heq]

theorem charLeb_total : ∀ x y : List Char, charLeb x y = true ∨ charLeb y x = true
  | [], _ => Or.inl rfl
  | _ :: _, [] => Or.inr rfl
  | a :: as, b :: bs => by
    rcases lt_trichotomy a b with h | h | h
    · exact Or.inl ((charLeb_cons a b as bs).mpr (Or.inl h))
    · rcases charLeb_total as bs with h2 | h2
      · exact Or.inl ((charLeb_cons a b as bs).mpr (Or.inr ⟨h, h2⟩))
      · exact Or.inr ((charLeb_cons b a bs as).mpr (Or.inr ⟨h.symm, h2⟩))
    · exact Or.inr ((charLeb_cons b a bs as).mpr (Or.inl h))

theorem charLeb_trans : ∀ x y z : List Char,
    charLeb x y = true → charLeb y z = true → charLeb x z = true
  | [], _, _ => fun _ _ => rfl
  | _ :: _, [], _ => fun hxy _ => by simp [charLeb] at hxy
  | _ :: _, _ :: _, [] => fun _ hyz => by simp [charLeb] at hyz
  | a :: as, b :: bs, c :: cs => fun hxy hyz => by
    rcases (charLeb_cons a b as bs).mp hxy with hab | ⟨hab, hxy2⟩ <;>
      rcases (charLeb_cons b c bs cs).mp hyz with hbc | ⟨hbc, hyz2⟩
    · exact (charLeb_cons a c as cs).mpr (Or.inl (lt_trans hab hbc))
    · exact (charLeb_cons a c as cs).mpr (Or.inl (hbc ▸ hab))
    · exact (charLeb_cons a c as cs).mpr (Or.inl (hab ▸ hbc))
    · exact (charLeb_cons a c as cs).mpr
        (Or.inr ⟨hab.trans hbc, charLeb_trans as bs cs hxy2 hyz2⟩)

theorem charLeb_antisymm : ∀ x y : List Char,
    charLeb x y = true → charLeb y x = true → x = y
  | [], [] => fun _ _ => rfl
  | [], _ :: _ => fun _ hyx => by simp [charLeb] at hyx
  | _ :: _, [] => fun hxy _ => by simp [charLeb] at hxy
  | a :: as, b :: bs => fun hxy hyx => by
    rcases (charLeb_cons a b as bs).mp hxy with hab | ⟨hab, hxy2⟩ <;>
      rcases (charLeb_cons b a bs as).mp hyx with hba | ⟨hba, hyx2⟩
    · exact absurd hba (lt_asymm hab)
    · exact absurd hab (hba ▸ lt_irrefl a)
    · exact absurd hba (hab ▸ lt_irrefl a)
    · rw [hab, charLeb_antisymm as bs hxy2 hyx2]

instance : IsTotal String (fun x y => strLeb x y = true) :=
  ⟨fun x y => charLeb_total x.data y.data⟩

instance : IsTrans String (fun x y => strLeb x y = true) :=
  ⟨fun x y z => charLeb_trans x.data y.data z.data⟩

instance : IsAntisymm String (fun x y => strLeb x y = true) :=
  ⟨fun x y hxy hyx => String.ext (charLeb_antisymm x.data y.data hxy hyx)⟩

/-- Modelled from the spec: utils.StringSliceDistinct (a repository helper not
under src) removes duplicates from a string slice, and sort.Strings then sorts
ascending in the byte-wise string order; addDimensionKeys applies the two in
that order to the group key list. Composed here as deduplication keeping first
occurrences followed by an insertion sort. -/
def dedupSort (l : List String) : List String :=
  List.insertionSort (fun x y => strLeb x y = true) l.dedup

theorem dedupSort_sorted (l : List String) :
    (dedupSort l).Sorted (fun x y => strLeb x y = true) :=
  List.sorted_insertionSort (fun x y => strLeb x y = true) l.dedup

theorem dedupSort_perm_dedup (l : List String) : (dedupSort l).Perm l.dedup :=
  List.perm_insertionSort (fun x y => strLeb x y = true) l.dedup

theorem dedupSort_nodup (l : List String) : (dedupSort l).Nodup :=
  (dedupSort_perm_dedup l).symm.nodup l.nodup_dedup

theorem dedupSort_mem (x : String) (l : List String) : x ∈ dedupSort l ↔ x ∈ l := by
  rw [(dedupSort_perm_dedup l).mem_iff, List.mem_dedup]

theorem dedupSort_eq_of_mem_iff (l1 l2 : List String)
    (h : ∀ x, x ∈ l1 ↔ x ∈ l2) : dedupSort l1 = dedupSort l2 := by
  apply List.eq_of_perm_of_sorted _ (dedupSort_sorted l1) (dedupSort_sorted l2)
  apply List.perm_of_nodup_nodup_toFinset_eq (dedupSort_nodup l1) (dedupSort_nodup l2)
  apply Finset.ext
  intro x
  simp [List.mem_toFinset, dedupSort_mem, h x]

theorem dedupSort_dedupSort_append (a ks : List String) :
    dedupSort (dedupSort a ++ ks) = dedupSort (a ++ ks) := by
  apply dedupSort_eq_of_mem_iff
  intro x
  simp [List.mem_append, dedupSort_mem]

/-- DimTree is the execution tree seen through the DimensionKeys aggregate:
each node carries its current key list and, for each of its direct
ControlRuns, the list of dimension keys appearing in the rows of that run. -/
abbrev DimTree := GTree (List String) (List String)

/-- Model of ResultGroup.addDimensionKeys: under the updateLock the incoming
keys are appended to the group key list, the same raw keys (not the local
deduplicated list) are passed to the parent by the recursive call, and only
after that call does the group deduplicate and sort its own list. Since the
parent call never touches this node, the net effect at every node on the
root-to-owner path p is: own list becomes dedupSort (own ++ keys), with the
raw keys identical at every node of the path. -/
def addDimensionKeys (keys : List String) (p : List Nat) (t : DimTree) : DimTree :=
  applyAt (fun l => dedupSort (l ++ keys)) p t

/-- State of the dimension-key tree after a list of completed runs, each given
as the path of its owning group and its raw key list, have pushed their keys up
the parent chain, in completion order. -/
def dimRunUpdates (t : DimTree) (us : List (List Nat × List String)) : DimTree :=
  us.foldl (fun acc u => addDimensionKeys u.2 u.1 acc) t

theorem valAt_dimRunUpdates (q : List Nat) (t : DimTree)
    (us : List (List Nat × List String)) :
    valAt q (dimRunUpdates t us) =
      (valAt q t).map (fun l0 =>
        (us.filter (fun u => isPref q u.1)).foldl (fun l u => dedupSort (l ++ u.2)) l0) := by
  induction us generalizing t with
  | nil =>
    simp only [dimRunUpdates, List.foldl_nil, List.filter_nil]
    cases valAt q t <;> simp
  | cons u us ih =>
    have hstep : dimRunUpdates t (u :: us) =
        dimRunUpdates (addDimensionKeys u.2 u.1 t) us := rfl
    rw [hstep, ih, addDimensionKeys, valAt_applyAt]
    by_cases hp : isPref q u.1
    · rw [if_pos hp]
      have hfil : (u :: us).filter (fun w => isPref q w.1) =
          u :: us.filter (fun w => isPref q w.1) := by
        simp [List.filter_cons, hp]
      rw [hfil]
      cases valAt q t with
      | none => simp
      | some v => simp
    · rw [if_neg hp]
      have hfil : (u :: us).filter (fun w => isPref q w.1) =
          us.filter (fun w => isPref q w.1) := by
        simp [List.filter_cons, hp]
      rw [hfil]

theorem foldl_dedupSort_append (xs : List (List String)) (a : List String) :
    xs.foldl (fun l k => dedupSort (l ++ k)) (dedupSort a) =
      dedupSort (a ++ xs.flatten) := by
  induction xs generalizing a with
  | nil => simp
  | cons k xs ih =>
    simp only [List.foldl_cons, List.flatten_cons]
    rw [dedupSort_dedupSort_append, ih (a ++ k)]
    simp [List.append_assoc]

/-- C8: for every freshly built execution tree (every DimensionKeys list is
empty) and every completion order in which each finished ControlRun pushes its
raw dimension keys up the parent chain exactly once, every ResultGroup of the
quiescent tree has as DimensionKeys exactly the sorted, duplicate-free set of
the dimension keys contributed by the runs of its subtree (gt is the same node
in the freshly built tree, carrying the static run contributions). -/
theorem addDimensionKeys_quiescence_law (t : DimTree)
    (hinit : allVals (fun l => l == ([] : List String)) t = true)
    (us : List (List Nat × List String))
    (hperm : us.Perm (runEnum [] t))
    (q : List Nat) (g gt : DimTree)
    (hq : nodeAt q (dimRunUpdates t us) = some g)
    (ht : nodeAt q t = some gt) :
    g.val = dedupSort (subtreeRuns gt).flatten ∧
    g.val.Sorted (fun x y => strLeb x y = true) ∧ g.val.Nodup ∧
    ∀ k, k ∈ g.val ↔ k ∈ (subtreeRuns gt).flatten := by
  have hval : valAt q (dimRunUpdates t us) = some g.val := by simp [valAt, hq]
  rw [valAt_dimRunUpdates] at hval
  have hvt : valAt q t = some gt.val := by simp [valAt, ht]
  rw [hvt] at hval
  have hzero : gt.val = [] := by
    have := allVals_nodeAt (fun l => l == ([] : List String)) q t hinit gt ht
    simpa using this
  have hval2 : (us.filter (fun u => isPref q u.1)).foldl
      (fun l u => dedupSort (l ++ u.2)) gt.val = g.val := Option.some.inj hval
  rw [hzero] at hval2
  have hmap : (us.filter (fun u => isPref q u.1)).foldl
      (fun l u => dedupSort (l ++ u.2)) ([] : List String) =
      ((us.filter (fun u => isPref q u.1)).map Prod.snd).foldl
        (fun l k => dedupSort (l ++ k)) ([] : List String) := by
    rw [List.foldl_map]
  have hfold : ((us.filter (fun u => isPref q u.1)).map Prod.snd).foldl
      (fun l k => dedupSort (l ++ k)) ([] : List String) =
      dedupSort ((us.filter (fun u => isPref q u.1)).map Prod.snd).flatten := by
    have h := foldl_dedupSort_append ((us.filter (fun u => isPref q u.1)).map Prod.snd) []
    simpa using h
  have hpermf := (hperm.filter (fun u => isPref q u.1)).map Prod.snd
  have hC := runEnum_filter_nodeAt q [] t
  simp only [List.nil_append, ht, optSubtreeRuns] at hC
  rw [hC] at hpermf
  have hmem : ∀ x, x ∈ ((us.filter (fun u => isPref q u.1)).map Prod.snd).flatten ↔
      x ∈ (subtreeRuns gt).flatten := by
    intro x
    simp only [List.mem_flatten]
    constructor
    · rintro ⟨l, hl, hx⟩
      exact ⟨l, hpermf.mem_iff.mp hl, hx⟩
    · rintro ⟨l, hl, hx⟩
      exact ⟨l, hpermf.mem_iff.mpr hl, hx⟩
  have hfinal : g.val = dedupSort (subtreeRuns gt).flatten := by
    rw [← hval2, hmap, hfold]
    exact dedupSort_eq_of_mem_iff _ _ hmem
  refine ⟨hfinal, ?_, ?_, ?_⟩
  · rw [hfinal]
    exact dedupSort_sorted _
  · rw [hfinal]
    exact dedupSort_nodup _
  · intro k
    rw [hfinal]
    exact dedupSort_mem k _

/-- Concrete tree for the C8 witness: one group with two direct runs, one
contributing the key region and the other the key account_id. -/
def c8tree : DimTree := .mk [] [["region"], ["account_id"]] []

/-- Completion order for the C8 witness, opposite to enumeration order. -/
def c8updates : List (List Nat × List String) :=
  [([], ["account_id"]), ([], ["region"])]

/-- Quiescent state of the C8 witness tree. -/
def c8final : DimTree := .mk ["account_id", "region"] [["region"], ["account_id"]] []

/-- Witness for C8: the hypotheses hold at the concrete tree and scrambled
completion order, and the law follows by the theorem applied there. -/
theorem addDimensionKeys_quiescence_law_witness :
    (allVals (fun l => l == ([] : List String)) c8tree = true ∧
      c8updates.Perm (runEnum [] c8tree) ∧
      nodeAt [] (dimRunUpdates c8tree c8updates) = some c8final ∧
      nodeAt [] c8tree = some c8tree) ∧
    (c8final.val = dedupSort (subtreeRuns c8tree).flatten ∧
      c8final.val.Sorted (fun x y => strLeb x y = true) ∧ c8final.val.Nodup ∧
      ∀ k, k ∈ c8final.val ↔ k ∈ (subtreeRuns c8tree).flatten) :=
  ⟨⟨by decide, by decide, by rfl, by rfl⟩,
    addDimensionKeys_quiescence_law c8tree (by decide) c8updates (by decide) []
      c8final c8tree (by rfl) (by rfl)⟩

/-- Association-list model of a Go map read m[k]: the stored value when the key
is present, none otherwise. -/
def lookupA : List (String × StatusSummary) → String → Option StatusSummary
  | [], _ => none
  | (k, v) :: rest, key => if k == key then some v else lookupA rest key

/-- Association-list model of a Go map write m[k] = v: replaces the entry if
present, appends it otherwise. -/
def insertA : List (String × StatusSummary) → String → StatusSummary →
    List (String × StatusSummary)
  | [], key, v => [(key, v)]
  | (k, w) :: rest, key, v =>
    if k == key then (key, v) :: rest else (k, w) :: insertA rest key v

/-- State of one ResultGroup as touched by updateSeverityCounts: the Severity
field of the ResultGroup itself (initialized to an empty map by
NewRootResultGroup and NewResultGroup and never written afterwards) and the
Severity map inside Summary (the map updateSeverityCounts writes). -/
structure SevGroupState where
  severity : List (String × StatusSummary)
  summarySeverity : List (String × StatusSummary)
  deriving DecidableEq, Repr

/-- Model of ResultGroup.updateSeverityCounts on the chain of groups from the
owning group up to the root (head is the owning group): under the updateLock it
reads val from the Severity field of the ResultGroup (a missing entry yields
the zero-valued summary), adds the run summary field-wise into val, stores the
result into Summary.Severity, and recurses to the parent with the same
arguments. Note that the read is from r.Severity while the write goes to
r.Summary.Severity, exactly as in the source. -/
def updateSeverityCounts (severity : String) (summary : StatusSummary) :
    List SevGroupState → List SevGroupState
  | [] => []
  | g :: parents =>
    let val := (lookupA g.severity severity).getD ⟨0, 0, 0, 0, 0⟩
    let val2 : StatusSummary :=
      ⟨val.ok + summary.ok, val.alarm + summary.alarm, val.info + summary.info,
        val.skip + summary.skip, val.error + summary.error⟩
    { g with summarySeverity := insertA g.summarySeverity severity val2 } ::
      updateSeverityCounts severity summary parents

/-- C2: evaluation of updateSeverityCounts at the failing input. One group with
both maps empty as built; two runs with severity high, each contributing one
alarm row, update it in sequence. The claim expects the stored counts to
accumulate to two alarms; the code stores one, because each call reads the
never-written Severity field of the ResultGroup (still empty) instead of the
Summary.Severity map it writes, so the second call overwrites the first with
zero plus its own summary instead of adding to it. -/
theorem updateSeverityCounts_failing_input_eval :
    updateSeverityCounts "high" ⟨0, 1, 0, 0, 0⟩
        (updateSeverityCounts "high" ⟨0, 1, 0, 0, 0⟩ [⟨[], []⟩]) =
      [⟨[], [("high", ⟨0, 1, 0, 0, 0⟩)]⟩] ∧
    (⟨0, 1, 0, 0, 0⟩ : StatusSummary) ≠ ⟨0, 2, 0, 0, 0⟩ := by
  constructor
  · rfl
  · decide

/-- Lower bound of int64, the Go minDuration. -/
def int64Min : Int := -9223372036854775808

/-- Upper bound of int64, the Go maxDuration. -/
def int64Max : Int := 9223372036854775807

/-- Value of an integer reduced into the int64 range, the wrap-around
behaviour of overflowing Go int64 arithmetic. -/
def wrap64 (x : Int) : Int :=
  (x + 9223372036854775808) % 18446744073709551616 - 9223372036854775808

/-- An integer representable as an int64. -/
def inInt64 (x : Int) : Prop := int64Min ≤ x ∧ x ≤ int64Max

instance (x : Int) : Decidable (inInt64 x) := by
  unfold inInt64
  infer_instance

/-- Go lessThanHalf(x, y) computes uint64(x)+uint64(x) < uint64(y); for the
arguments Round passes it (0 le x lt y le int64Max) the unsigned
reinterpretation is the identity and the doubled value cannot wrap, so it is
x + x < y. -/
def lessThanHalf (x y : Int) : Bool := decide (x + x < y)

/-- One millisecond in nanoseconds, the resolution addDuration rounds to. -/
def millisecond : Int := 1000000

/-- Model of Go time.Duration.Round (int64 nanoseconds): rounds d to the
nearest multiple of m, half away from zero, returning the clamp minDuration or
maxDuration when the rounded value overflows. The intermediate sums d1 wrap as
int64 (wrap64); the sums d + r and d - r in the half-or-less branches cannot
overflow for any int64 input since the remainder moves the value toward zero.
The local variables r and d1 of the source are inlined. -/
def durationRound (d m : Int) : Int :=
  if m ≤ 0 then d
  else if d < 0 then
    if lessThanHalf (-(Int.tmod d m)) m then d + -(Int.tmod d m)
    else if wrap64 (d - m + -(Int.tmod d m)) < d then wrap64 (d - m + -(Int.tmod d m))
    else int64Min
  else
    if lessThanHalf (Int.tmod d m) m then d - Int.tmod d m
    else if wrap64 (d + m - Int.tmod d m) > d then wrap64 (d + m - Int.tmod d m)
    else int64Max

/-- Model of ResultGroup.addDuration on the chain of accumulated Duration
fields from the owning group up to the root (head is the owning group): under
the updateLock the group adds the duration rounded to a millisecond into its
own Duration (int64 addition, hence wrap64), then calls the parent with the
already rounded value. -/
def addDuration : List Int → Int → List Int
  | [], _ => []
  | acc :: parents, d =>
    wrap64 (acc + durationRound d millisecond) ::
      addDuration parents (durationRound d millisecond)

/-- Accumulated Duration of one group after n runs of duration d each push
their rounded duration into it through addDuration. -/
def repeatedAdd : Nat → Int → Int → Int
  | 0, _, acc => acc
  | n + 1, d, acc => repeatedAdd n d (wrap64 (acc + durationRound d millisecond))

theorem wrap64_eq_self (x : Int) (h : inInt64 x) : wrap64 x = x := by
  unfold inInt64 int64Min int64Max at h
  unfold wrap64
  omega

theorem wrap64_range (x : Int) : inInt64 (wrap64 x) := by
  unfold inInt64 int64Min int64Max wrap64
  omega

theorem wrap64_sub_of_gt (x : Int) (h1 : int64Max < x)
    (h2 : x ≤ int64Max + 18446744073709551616) :
    wrap64 x = x - 18446744073709551616 := by
  unfold int64Max at h1 h2
  unfold wrap64
  omega

theorem wrap64_add_of_lt (x : Int) (h1 : x < int64Min)
    (h2 : int64Min - 18446744073709551616 ≤ x) :
    wrap64 x = x + 18446744073709551616 := by
  unfold int64Min at h1 h2
  unfold wrap64
  omega

theorem tmod_neg_bounds (d m : Int) (hd : d < 0) (hm : 0 < m) :
    -m < Int.tmod d m ∧ Int.tmod d m ≤ 0 := by
  cases d with
  | ofNat n =>
    exfalso
    have : (0 : Int) ≤ Int.ofNat n := Int.ofNat_nonneg n
    omega
  | negSucc k =>
    cases m with
    | ofNat j =>
      have hred : Int.tmod (Int.negSucc k) (Int.ofNat j) = -(Int.ofNat ((k + 1) % j)) := rfl
      rw [hred]
      have hj : (0 : Int) < Int.ofNat j := hm
      rw [Int.ofNat_eq_coe] at hj ⊢
      have hjn : 0 < j := by exact_mod_cast hj
      have hlt : (k + 1) % j < j := Nat.mod_lt _ hjn
      rw [Int.ofNat_eq_coe]
      constructor
      · have : ((k + 1) % j : Int) < (j : Int) := by exact_mod_cast hlt
        omega
      · have : (0 : Int) ≤ ((k + 1) % j : Int) := Int.natCast_nonneg _
        omega
    | negSucc j =>
      exfalso
      have : Int.negSucc j < 0 := Int.negSucc_lt_zero j
      omega

theorem durationRound_millisecond_cases (d : Int) (h : inInt64 d) :
    durationRound d millisecond = int64Min ∨ durationRound d millisecond = int64Max ∨
      (Int.tmod (durationRound d millisecond) millisecond = 0 ∧
        inInt64 (durationRound d millisecond)) := by
  have hid := Int.tmod_add_tdiv d millisecond
  unfold inInt64 int64Min int64Max at h ⊢
  unfold durationRound lessThanHalf
  simp only [millisecond] at *
  simp only [decide_eq_true_eq]
  rw [if_neg (by norm_num : ¬ (1000000 : Int) ≤ 0)]
  by_cases hneg : d < 0
  · have hb := tmod_neg_bounds d 1000000 hneg (by norm_num)
    rw [if_pos hneg]
    by_cases hh : -(Int.tmod d 1000000) + -(Int.tmod d 1000000) < 1000000
    · rw [if_pos hh]
      right; right
      constructor
      · have heq : d + -Int.tmod d 1000000 = 1000000 * d.tdiv 1000000 := by omega
        rw [heq]
        exact Int.mul_tmod_right _ _
      · omega
    · rw [if_neg hh]
      by_cases hymin : (-9223372036854775808 : Int) ≤ d - 1000000 + -(Int.tmod d 1000000)
      · have hw : wrap64 (d - 1000000 + -(Int.tmod d 1000000)) =
            d - 1000000 + -(Int.tmod d 1000000) := by
          apply wrap64_eq_self
          unfold inInt64 int64Min int64Max
          omega
        rw [if_pos (by rw [hw]; omega)]
        rw [hw]
        right; right
        refine ⟨?_, by omega⟩
        have heq : d - 1000000 + -(Int.tmod d 1000000) =
            1000000 * (d.tdiv 1000000 - 1) := by omega
        rw [heq]
        exact Int.mul_tmod_right _ _
      · have hw : wrap64 (d - 1000000 + -(Int.tmod d 1000000)) =
            d - 1000000 + -(Int.tmod d 1000000) + 18446744073709551616 := by
          apply wrap64_add_of_lt
          · unfold int64Min
            omega
          · unfold int64Min
            omega
        rw [if_neg (by rw [hw]; omega)]
        left
        rfl
  · have hdnn : 0 ≤ d := le_of_not_lt hneg
    have hT0 : 0 ≤ Int.tmod d 1000000 := Int.tmod_nonneg 1000000 hdnn
    have hTlt : Int.tmod d 1000000 < 1000000 := Int.tmod_lt_of_pos d (by norm_num)
    rw [if_neg hneg]
    by_cases hh : Int.tmod d 1000000 + Int.tmod d 1000000 < 1000000
    · rw [if_pos hh]
      right; right
      constructor
      · have heq : d - Int.tmod d 1000000 = 1000000 * d.tdiv 1000000 := by omega
        rw [heq]
        exact Int.mul_tmod_right _ _
      · omega
    · rw [if_neg hh]
      by_cases hxmax : d + 1000000 - Int.tmod d 1000000 ≤ (9223372036854775807 : Int)
      · have hw : wrap64 (d + 1000000 - Int.tmod d 1000000) =
            d + 1000000 - Int.tmod d 1000000 := by
          apply wrap64_eq_self
          unfold inInt64 int64Min int64Max
          omega
        rw [if_pos (by rw [hw]; omega)]
        rw [hw]
        right; right
        refine ⟨?_, by omega⟩
        have heq : d + 1000000 - Int.tmod d 1000000 =
            1000000 * (d.tdiv 1000000 + 1) := by omega
        rw [heq]
        exact Int.mul_tmod_right _ _
      · have hw : wrap64 (d + 1000000 - Int.tmod d 1000000) =
            d + 1000000 - Int.tmod d 1000000 - 18446744073709551616 := by
          apply wrap64_sub_of_gt
          · unfold int64Max
            omega
          · unfold int64Max
            omega
        rw [if_neg (by rw [hw]; omega)]
        right
        left
        rfl

theorem durationRound_multiple (d : Int) (h : Int.tmod d millisecond = 0) :
    durationRound d millisecond = d := by
  unfold durationRound lessThanHalf
  rw [h]
  simp only [millisecond, decide_eq_true_eq]
  rw [if_neg (by norm_num : ¬ (1000000 : Int) ≤ 0)]
  by_cases hneg : d < 0
  · rw [if_pos hneg, if_pos (by norm_num)]
    norm_num
  · rw [if_neg hneg, if_pos (by norm_num)]
    norm_num

theorem durationRound_min : durationRound int64Min millisecond = int64Min := by decide

theorem durationRound_max : durationRound int64Max millisecond = int64Max := by decide

theorem durationRound_idem (d : Int) (h : inInt64 d) :
    durationRound (durationRound d millisecond) millisecond =
      durationRound d millisecond := by
  rcases durationRound_millisecond_cases d h with hc | hc | hc
  · rw [hc]
    exact durationRound_min
  · rw [hc]
    exact durationRound_max
  · exact durationRound_multiple _ hc.1

theorem durationRound_nonneg_le (d : Int) (hd : 0 ≤ d) (h : inInt64 d) :
    0 ≤ durationRound d millisecond ∧ durationRound d millisecond ≤ int64Max := by
  have hid := Int.tmod_add_tdiv d millisecond
  have hT0 : 0 ≤ Int.tmod d millisecond := Int.tmod_nonneg millisecond hd
  have hTlt : Int.tmod d millisecond < millisecond :=
    Int.tmod_lt_of_pos d (by norm_num [millisecond])
  unfold inInt64 int64Min int64Max at h
  unfold int64Max
  unfold durationRound lessThanHalf
  simp only [millisecond, decide_eq_true_eq] at *
  rw [if_neg (by norm_num : ¬ (1000000 : Int) ≤ 0), if_neg (by omega : ¬ d < 0)]
  by_cases hh : Int.tmod d 1000000 + Int.tmod d 1000000 < 1000000
  · rw [if_pos hh]
    omega
  · rw [if_neg hh]
    by_cases hxmax : d + 1000000 - Int.tmod d 1000000 ≤ (9223372036854775807 : Int)
    · have hw : wrap64 (d + 1000000 - Int.tmod d 1000000) =
          d + 1000000 - Int.tmod d 1000000 := by
        apply wrap64_eq_self
        unfold inInt64 int64Min int64Max
        omega
      rw [if_pos (by rw [hw]; omega)]
      omega
    · have hw : wrap64 (d + 1000000 - Int.tmod d 1000000) =
          d + 1000000 - Int.tmod d 1000000 - 18446744073709551616 := by
        apply wrap64_sub_of_gt
        · unfold int64Max
          omega
        · unfold int64Max
          omega
      rw [if_neg (by rw [hw]; omega)]
      unfold int64Max
      norm_num

theorem repeatedAdd_eq (d : Int) (hd0 : 0 ≤ d) (hd : inInt64 d) :
    ∀ (n : Nat) (acc : Int), 0 ≤ acc →
      acc + (n : Int) * durationRound d millisecond ≤ int64Max →
      repeatedAdd n d acc = acc + (n : Int) * durationRound d millisecond := by
  have hR := durationRound_nonneg_le d hd0 hd
  intro n
  induction n with
  | zero =>
    intro acc h1 h2
    simp [repeatedAdd]
  | succ n ih =>
    intro acc h1 h2
    have hcast : ((n + 1 : Nat) : Int) = (n : Int) + 1 := by push_cast; ring
    rw [hcast] at h2
    have hexp : ((n : Int) + 1) * durationRound d millisecond =
        (n : Int) * durationRound d millisecond + durationRound d millisecond := by ring
    rw [hexp] at h2
    have hnR : 0 ≤ (n : Int) * durationRound d millisecond :=
      mul_nonneg (Int.natCast_nonneg n) hR.1
    have hin : inInt64 (acc + durationRound d millisecond) := by
      unfold inInt64 int64Min int64Max at *
      omega
    show repeatedAdd n d (wrap64 (acc + durationRound d millisecond)) = _
    rw [wrap64_eq_self _ hin,
      ih (acc + durationRound d millisecond) (by omega)
        (by unfold int64Max at h2 ⊢; omega),
      hcast, hexp]
    ring

theorem addDuration_map (accs : List Int) (d : Int) (hd : inInt64 d) :
    addDuration accs (durationRound d millisecond) =
      accs.map (fun acc => wrap64 (acc + durationRound d millisecond)) := by
  induction accs with
  | nil => rfl
  | cons acc rest ih =>
    show wrap64 (acc + durationRound (durationRound d millisecond) millisecond) ::
        addDuration rest (durationRound (durationRound d millisecond) millisecond) = _
    rw [durationRound_idem d hd, ih]
    rfl

/-- C7: addDuration adds the run duration rounded to one millisecond into the
Duration of the owning group and passes exactly the rounded value, not the raw
duration, to the parent (first conjunct); re-rounding the already rounded value
changes nothing (second conjunct), so every ancestor in the chain adds the same
rounded amount (third conjunct); and a group receiving n runs of equal
nonnegative duration x accumulates exactly n times the rounded value, in
particular never less than n times round(x) (fourth and fifth conjuncts, under
no-overflow side conditions). -/
theorem addDuration_rounding (acc d : Int) (rest : List Int) (hd : inInt64 d)
    (n : Nat) (x : Int) (hx0 : 0 ≤ x) (hx1 : inInt64 x)
    (hsum : (n : Int) * durationRound x millisecond ≤ int64Max) :
    addDuration (acc :: rest) d =
      wrap64 (acc + durationRound d millisecond) ::
        addDuration rest (durationRound d millisecond) ∧
    durationRound (durationRound d millisecond) millisecond =
      durationRound d millisecond ∧
    addDuration rest (durationRound d millisecond) =
      rest.map (fun a => wrap64 (a + durationRound d millisecond)) ∧
    repeatedAdd n x 0 = (n : Int) * durationRound x millisecond ∧
    (n : Int) * durationRound x millisecond ≤ repeatedAdd n x 0 := by
  have heq := repeatedAdd_eq x hx0 hx1 n 0 le_rfl (by simpa using hsum)
  exact ⟨rfl, durationRound_idem d hd, addDuration_map rest d hd,
    by simpa using heq, by simp [heq]⟩

/-- Witness for C7 at concrete values: a run of 1.234567 ms rounds to 1 ms and
that value reaches the parent chain unchanged; three runs of 0.4 ms each round
to zero, so the accumulated duration is zero, which is not less than three
times the rounded value. -/
theorem addDuration_rounding_witness :
    (inInt64 1234567 ∧ (0 : Int) ≤ 400000 ∧ inInt64 400000 ∧
      (3 : Int) * durationRound 400000 millisecond ≤ int64Max) ∧
    (addDuration [0, 5000000] 1234567 =
        wrap64 (0 + durationRound 1234567 millisecond) ::
          addDuration [5000000] (durationRound 1234567 millisecond) ∧
      durationRound (durationRound 1234567 millisecond) millisecond =
        durationRound 1234567 millisecond ∧
      addDuration [5000000] (durationRound 1234567 millisecond) =
        [5000000].map (fun a => wrap64 (a + durationRound 1234567 millisecond)) ∧
      repeatedAdd 3 400000 0 = (3 : Int) * durationRound 400000 millisecond ∧
      (3 : Int) * durationRound 400000 millisecond ≤ repeatedAdd 3 400000 0) :=
  ⟨⟨by decide, by decide, by decide, by decide⟩,
    addDuration_rounding 0 1234567 [5000000] (by decide) 3 400000 (by decide)
      (by decide) (by decide)⟩

/-- Source-tree item as consumed by the result group builder: either a control
or a benchmark grouping further items. Each carries its fully qualified name
(treeItem.Name()) and the name of the mod defining it (treeItem.GetMod().Name());
display fields (title, description, tags) are omitted because no claim
concerns them. -/
inductive ModTreeItem where
  | control (name : String) (modName : String)
  | benchmark (name : String) (modName : String) (children : List ModTreeItem)

/-- Fully qualified name of the item. -/
def ModTreeItem.name : ModTreeItem → String
  | .control n _ => n
  | .benchmark n _ _ => n

/-- Name of the mod defining the item. -/
def ModTreeItem.modName : ModTreeItem → String
  | .control _ m => m
  | .benchmark _ m _ => m

/-- Children of the item, as GetChildren returns them. -/
def ModTreeItem.getChildren : ModTreeItem → List ModTreeItem
  | .control _ _ => []
  | .benchmark _ _ cs => cs

/-- Result of building a ResultGroup, restricted to the fields the build and
lookup claims concern: GroupId, the control names of the direct ControlRuns,
and the ordered child groups. -/
inductive BuiltGroup where
  | mk (groupId : String) (controlRuns : List String) (groups : List BuiltGroup)

/-- GroupId of the built group. -/
def BuiltGroup.groupId : BuiltGroup → String
  | .mk g _ _ => g

/-- Control names of the direct ControlRuns of the built group. -/
def BuiltGroup.controlRuns : BuiltGroup → List String
  | .mk _ rs _ => rs

/-- Child groups of the built group. -/
def BuiltGroup.groups : BuiltGroup → List BuiltGroup
  | .mk _ _ gs => gs

mutual

/-- Model of ResultGroup.ControlRunCount: the number of direct ControlRuns plus
the counts of all child groups. -/
def BuiltGroup.controlRunCount : BuiltGroup → Nat
  | .mk _ runs gs => runs.length + controlRunCountList gs

/-- List version of controlRunCount. -/
def controlRunCountList : List BuiltGroup → Nat
  | [] => 0
  | g :: gs => g.controlRunCount + controlRunCountList gs

end

/-- Splits a character list at dots, the separator of qualified resource
names. -/
def splitDots : List Char → List (List Char)
  | [] => [[]]
  | c :: rest =>
    if c = '.' then [] :: splitDots rest
    else
      match splitDots rest with
      | [] => [[c]]
      | s :: ss => (c :: s) :: ss

/-- Modelled from the spec: modconfig.UnqualifiedResourceName (not under src)
turns a fully qualified three-part name mod.type.name into the unqualified
type.name; names of any other shape are returned unchanged. -/
def unqualifiedResourceName (name : String) : String :=
  match (splitDots name.data).map (fun s => String.mk s) with
  | [_, typ, short] => typ ++ "." ++ short
  | _ => name

/-- Modelled from the spec: executionTree.AddControl (not under src) attaches
one ControlRun for a control to the given group; over the child loop of the
builder this yields one run per control child, in order. -/
def controlChildNames : List ModTreeItem → List String
  | [] => []
  | .control n _ :: rest => n :: controlChildNames rest
  | .benchmark _ _ _ :: rest => controlChildNames rest

mutual

/-- Model of NewResultGroup. The local variable groupId is computed exactly as
in the source: the qualified name, replaced by the unqualified name when the
defining mod is the workspace mod (only show qualified group names for
controls from dependent mods); but the group is then constructed with GroupId
set to treeItem.Name(), and the computed groupId is never read, exactly as in
the source. Benchmark children are built recursively and attached only when
their transitive ControlRunCount is positive; control children become
ControlRuns. -/
def newResultGroup (workspaceMod : String) : ModTreeItem → BuiltGroup
  | .control n m =>
    let _groupId :=
      if m == workspaceMod then unqualifiedResourceName n else n
    .mk n [] []
  | .benchmark n m cs =>
    let _groupId :=
      if m == workspaceMod then unqualifiedResourceName n else n
    .mk n (controlChildNames cs) (buildChildGroups workspaceMod cs)

/-- Child-group construction loop of NewResultGroup: benchmarks are built and
attached only if they contain at least one control transitively; controls are
handled by controlChildNames; nothing else is attached. -/
def buildChildGroups (workspaceMod : String) : List ModTreeItem → List BuiltGroup
  | [] => []
  | .control _ _ :: rest => buildChildGroups workspaceMod rest
  | .benchmark n m cs :: rest =>
    let benchmarkGroup := newResultGroup workspaceMod (.benchmark n m cs)
    if 0 < benchmarkGroup.controlRunCount then
      benchmarkGroup :: buildChildGroups workspaceMod rest
    else buildChildGroups workspaceMod rest

end

/-- Root-item loop of NewRootResultGroup for the non-control items: every such
item gets a child result group appended unconditionally, with no check of its
transitive control count. -/
def rootGroups (workspaceMod : String) : List ModTreeItem → List BuiltGroup
  | [] => []
  | .control _ _ :: rest => rootGroups workspaceMod rest
  | .benchmark n m cs :: rest =>
    newResultGroup workspaceMod (.benchmark n m cs) :: rootGroups workspaceMod rest

/-- Model of NewRootResultGroup: a root group with the fixed id
root_result_group; control root items are attached as ControlRuns of the root
(via AddControl, modelled from the spec), every other root item becomes a child
result group, attached unconditionally. -/
def newRootResultGroup (workspaceMod : String) (rootItems : List ModTreeItem) : BuiltGroup :=
  .mk "root_result_group" (controlChildNames rootItems) (rootGroups workspaceMod rootItems)

mutual

/-- Recursive pruning invariant: every child group attached anywhere below this
group has a positive transitive control count. -/
def groupsPruned : BuiltGroup → Bool
  | .mk _ _ gs => groupsPrunedList gs

/-- List version of groupsPruned. -/
def groupsPrunedList : List BuiltGroup → Bool
  | [] => true
  | g :: gs => (decide (0 < g.controlRunCount) && groupsPruned g) && groupsPrunedList gs

end

mutual

theorem newResultGroup_pruned (workspaceMod : String) :
    ∀ item, groupsPruned (newResultGroup workspaceMod item) = true
  | .control _ _ => rfl
  | .benchmark n m cs => by
    show groupsPrunedList (buildChildGroups workspaceMod cs) = true
    exact buildChildGroups_pruned workspaceMod cs

theorem buildChildGroups_pruned (workspaceMod : String) :
    ∀ items, groupsPrunedList (buildChildGroups workspaceMod items) = true
  | [] => rfl
  | .control _ _ :: rest => buildChildGroups_pruned workspaceMod rest
  | .benchmark n m cs :: rest => by
    show groupsPrunedList
        (if 0 < (newResultGroup workspaceMod (.benchmark n m cs)).controlRunCount then
          newResultGroup workspaceMod (.benchmark n m cs) ::
            buildChildGroups workspaceMod rest
        else buildChildGroups workspaceMod rest) = true
    by_cases hc : 0 < (newResultGroup workspaceMod (.benchmark n m cs)).controlRunCount
    · rw [if_pos hc]
      show ((decide (0 < (newResultGroup workspaceMod (.benchmark n m cs)).controlRunCount) &&
          groupsPruned (newResultGroup workspaceMod (.benchmark n m cs))) &&
          groupsPrunedList (buildChildGroups workspaceMod rest)) = true
      rw [decide_eq_true hc,
        newResultGroup_pruned workspaceMod (.benchmark n m cs),
        buildChildGroups_pruned workspaceMod rest]
      rfl
    · rw [if_neg hc]
      exact buildChildGroups_pruned workspaceMod rest

end

theorem rootGroups_pruned (workspaceMod : String) (items : List ModTreeItem) :
    (rootGroups workspaceMod items).all groupsPruned = true := by
  induction items with
  | nil => rfl
  | cons item rest ih =>
    cases item with
    | control n m => exact ih
    | benchmark n m cs =>
      simp only [rootGroups, List.all_cons, Bool.and_eq_true]
      exact ⟨newResultGroup_pruned workspaceMod (.benchmark n m cs), ih⟩

/-- C3 counterexample: a benchmark with no controls passed as a top-level item
to NewRootResultGroup is attached as a child of the root even though its
transitive control count is zero, because the root loop appends every
non-control item without the ControlRunCount check that NewResultGroup applies
to nested benchmarks. The claim, which asserts pruning at every level
including directly under the root, is therefore false. -/
theorem newRootResultGroup_attaches_empty_group :
    (newRootResultGroup "mod1" [.benchmark "mod1.benchmark.empty" "mod1" []]).groups.length = 1 ∧
    ∀ g ∈ (newRootResultGroup "mod1" [.benchmark "mod1.benchmark.empty" "mod1" []]).groups,
      g.controlRunCount = 0 := by
  constructor
  · rfl
  · intro g hg
    have : g = newResultGroup "mod1" (.benchmark "mod1.benchmark.empty" "mod1" []) := by
      simpa [newRootResultGroup, rootGroups, BuiltGroup.groups] using hg
    rw [this]
    rfl

/-- C3 amended: inside NewResultGroup the pruning law holds recursively at
every level (an attached benchmark group always has a positive transitive
control count, and so do its own attached children, and so on); but grouping
items passed directly to NewRootResultGroup are attached unconditionally, so a
group with zero transitive controls can appear exactly at depth one, as a
direct child of the root, and nowhere deeper. -/
theorem resultGroup_pruning_amended (workspaceMod : String) (item : ModTreeItem)
    (rootItems : List ModTreeItem) :
    groupsPruned (newResultGroup workspaceMod item) = true ∧
    (newRootResultGroup workspaceMod rootItems).groups.all groupsPruned = true ∧
    (newRootResultGroup workspaceMod rootItems).groups = rootGroups workspaceMod rootItems :=
  ⟨newResultGroup_pruned workspaceMod item, rootGroups_pruned workspaceMod rootItems, rfl⟩

/-- C4: evaluation at the failing input. For a benchmark defined in the
workspace mod itself, the claim (and the comment in the source) say the
GroupId should be the unqualified short name; the source computes exactly that
unqualified name into the local variable groupId, but then constructs the
group with GroupId: treeItem.Name(), leaving the computed value unused; the
built GroupId stays fully qualified and differs from the unqualified name. -/
theorem newResultGroup_groupId_failing_input_eval :
    (newResultGroup "mod1" (.benchmark "mod1.benchmark.b1" "mod1" [])).groupId =
      "mod1.benchmark.b1" ∧
    unqualifiedResourceName "mod1.benchmark.b1" = "benchmark.b1" ∧
    ("mod1.benchmark.b1" : String) ≠ "benchmark.b1" := by
  refine ⟨rfl, by decide, by decide⟩

/-- Error kinds a ControlRun can be marked with before or instead of being
dispatched by the loop in ResultGroup.execute. -/
inductive FateError where
  | cancellation
  | acquisition
  deriving DecidableEq, Repr

/-- Fate of one ControlRun as decided by the dispatch loop. -/
inductive Fate where
  | errored (e : FateError)
  | skipped
  | dispatched
  deriving DecidableEq, Repr

/-- Model of the body of the dispatch loop of ResultGroup.execute for one run:
given the dry-run flag (viper.GetBool ArgDryRun), whether the context is
already cancelled at this iteration (utils.IsContextCancelled, in which case
setError receives the cancellation cause), and whether Acquire on the
parallelism semaphore succeeds (it fails exactly when the context is cancelled
while waiting, and setError then receives the acquisition error), it returns
the fate of the run together with the number of limiter slots acquired for
it. -/
def decideRun (dryRun cancelled acquireOk : Bool) : Fate × Nat :=
  if cancelled then (.errored .cancellation, 0)
  else if dryRun then (.skipped, 0)
  else if acquireOk then (.dispatched, 1)
  else (.errored .acquisition, 0)

/-- Model of the dispatch loop over the direct ControlRuns of a group: each run
is decided in order with its own cancellation and acquisition observation
(first and second component of its entry), and the loop always continues with
the next run whatever the outcome. -/
def executeRuns (dryRun : Bool) : List (Bool × Bool) → List (Fate × Nat)
  | [] => []
  | (cancelled, acquireOk) :: rest =>
    decideRun dryRun cancelled acquireOk :: executeRuns dryRun rest

theorem executeRuns_length (dryRun : Bool) (envs : List (Bool × Bool)) :
    (executeRuns dryRun envs).length = envs.length := by
  induction envs with
  | nil => rfl
  | cons e rest ih =>
    cases e
    simpa [executeRuns] using ih

theorem executeRuns_getElem (dryRun : Bool) (envs : List (Bool × Bool)) (i : Nat)
    (cancelled acquireOk : Bool) (h : envs[i]? = some (cancelled, acquireOk)) :
    (executeRuns dryRun envs)[i]? = some (decideRun dryRun cancelled acquireOk) := by
  induction envs generalizing i with
  | nil => simp at h
  | cons e rest ih =>
    cases e with
    | mk c a =>
      cases i with
      | zero =>
        simp only [List.getElem?_cons_zero, Option.some.injEq, Prod.mk.injEq] at h
        simp [executeRuns, h.1, h.2]
      | succ i =>
        simp only [List.getElem?_cons_succ] at h
        simpa [executeRuns] using ih i h

/-- C5: per-run fate order in ResultGroup.execute. Every run is decided
independently and the loop covers all runs (first two conjuncts); for the run
at any position: if the context is already cancelled it is errored with the
cancellation cause and no limiter slot is consumed; otherwise if the dry-run
flag is set it is skipped and not executed; otherwise if slot acquisition
fails it is errored with the acquisition error, holds no slot, and the loop
still processes the remaining runs; otherwise it is dispatched holding exactly
one slot. -/
theorem execute_fate_order (dryRun : Bool) (envs : List (Bool × Bool)) (i : Nat)
    (cancelled acquireOk : Bool) (h : envs[i]? = some (cancelled, acquireOk)) :
    (executeRuns dryRun envs).length = envs.length ∧
    (executeRuns dryRun envs)[i]? = some (decideRun dryRun cancelled acquireOk) ∧
    (cancelled = true →
      decideRun dryRun cancelled acquireOk = (.errored .cancellation, 0)) ∧
    (cancelled = false → dryRun = true →
      decideRun dryRun cancelled acquireOk = (.skipped, 0)) ∧
    (cancelled = false → dryRun = false → acquireOk = false →
      decideRun dryRun cancelled acquireOk = (.errored .acquisition, 0)) ∧
    (cancelled = false → dryRun = false → acquireOk = true →
      decideRun dryRun cancelled acquireOk = (.dispatched, 1)) := by
  refine ⟨executeRuns_length dryRun envs, executeRuns_getElem dryRun envs i cancelled acquireOk h,
    ?_, ?_, ?_, ?_⟩ <;> intros <;> subst_vars <;> rfl

/-- Witness for C5: a group with two runs, the first seeing a cancelled
context, the second failing slot acquisition with dry-run off. -/
theorem execute_fate_order_witness :
    ([(true, true), (false, false)] : List (Bool × Bool))[1]? = some (false, false) ∧
    ((executeRuns false [(true, true), (false, false)]).length = 2 ∧
      (executeRuns false [(true, true), (false, false)])[1]? =
        some (decideRun false false false) ∧
      decideRun false false false = (.errored .acquisition, 0)) :=
  ⟨by decide,
    (execute_fate_order false [(true, true), (false, false)] 1 false false (by decide)).1,
    (execute_fate_order false [(true, true), (false, false)] 1 false false (by decide)).2.1,
    (execute_fate_order false [(true, true), (false, false)] 1 false false (by decide)).2.2.2.2.1
      rfl rfl rfl⟩

/-- Outcome of run.execute inside the dispatched goroutine: normal completion,
or a runtime panic carrying a panic value. -/
inductive ExecOutcome where
  | ok
  | panicked (msg : String)
  deriving DecidableEq, Repr

/-- Error object produced by helpers.ToError from a recovered panic value. -/
structure GoErr where
  msg : String
  deriving DecidableEq, Repr

/-- Observable behaviour of the dispatched task at the dispatch boundary: the
error recorded on the run (if any), how many times the limiter slot was
released, and whether a panic escaped the goroutine. -/
structure TaskOutcome where
  errorSet : Option GoErr
  releases : Nat
  unwound : Bool
  deriving DecidableEq, Repr

/-- Model of the goroutine body dispatched by ResultGroup.execute: run.execute
runs first; the deferred function then calls recover, and if a panic value was
recovered converts it with helpers.ToError and records it via run.setError;
Release(1) is inside the same deferred function after the recover, so it runs
on the normal path and on the panic path alike, and because recover stops the
unwinding the panic never escapes the goroutine. -/
def dispatchedRun (outcome : ExecOutcome) : TaskOutcome :=
  match outcome with
  | .ok => { errorSet := none, releases := 1, unwound := false }
  | .panicked msg => { errorSet := some ⟨msg⟩, releases := 1, unwound := false }

/-- C6: on every exit path of the dispatched task the limiter slot is released
exactly once, no panic unwinds past the dispatch boundary, a panic during the
run execution becomes the recorded run error, and a normal completion records
no error at the boundary. -/
theorem dispatched_run_release_and_recover (outcome : ExecOutcome) :
    (dispatchedRun outcome).releases = 1 ∧
    (dispatchedRun outcome).unwound = false ∧
    (∀ msg, outcome = .panicked msg → (dispatchedRun outcome).errorSet = some ⟨msg⟩) ∧
    (outcome = .ok → (dispatchedRun outcome).errorSet = none) := by
  cases outcome <;> simp [dispatchedRun]

/-- Witness for C6 at a concrete panic outcome. -/
theorem dispatched_run_release_and_recover_witness :
    (dispatchedRun (.panicked "boom")).releases = 1 ∧
    (dispatchedRun (.panicked "boom")).unwound = false ∧
    (dispatchedRun (.panicked "boom")).errorSet = some ⟨"boom"⟩ :=
  ⟨(dispatched_run_release_and_recover (.panicked "boom")).1,
    (dispatched_run_release_and_recover (.panicked "boom")).2.1,
    (dispatched_run_release_and_recover (.panicked "boom")).2.2.1 "boom" rfl⟩

/-- Events of the lock trace of one upward aggregation call; the groups of the
parent chain are numbered from the owning group upward. -/
inductive LockEvent where
  | lock (g : Nat)
  | mutate (g : Nat)
  | unlock (g : Nat)
  deriving DecidableEq, Repr

/-- Lock trace of one updateSummary call (updateSeverityCounts, addDuration
and addDimensionKeys have the same shape) along the chain of groups from the
owning group to the root: the method takes the own updateLock, defers its
Unlock, mutates the own aggregate, and recurses into the parent; the deferred
Unlock only fires when the method returns, which is after the entire parent
recursion has finished. -/
def updateChainTrace : List Nat → List LockEvent
  | [] => []
  | g :: parents =>
    .lock g :: .mutate g :: (updateChainTrace parents ++ [.unlock g])

/-- Stack replay of a lock trace: lock pushes a group not already held (a
relock of a held sync.Mutex would self-deadlock), mutate requires holding the
lock of the group it touches, unlock pops exactly the most recently acquired
lock; any violation aborts with none. Returns the held stack after the
trace. -/
def runTrace : List LockEvent → List Nat → Option (List Nat)
  | [], held => some held
  | .lock g :: rest, held =>
    if g ∈ held then none else runTrace rest (g :: held)
  | .mutate g :: rest, held =>
    if held.head? = some g then runTrace rest held else none
  | .unlock g :: rest, held =>
    if held.head? = some g then runTrace rest held.tail else none

/-- Change of the held-lock count caused by one event. -/
def stepHeld : LockEvent → Nat → Nat
  | .lock _, n => n + 1
  | .mutate _, n => n
  | .unlock _, n => n - 1

/-- Held-lock count after a trace, starting from a given count. -/
def endHeld : List LockEvent → Nat → Nat
  | [], n => n
  | e :: rest, n => endHeld rest (stepHeld e n)

/-- Largest held-lock count reached along a trace (including the start). -/
def maxHeld : List LockEvent → Nat → Nat
  | [], n => n
  | e :: rest, n => max n (maxHeld rest (stepHeld e n))

/-- C9 counterexample: already for a chain of two groups (owning group 0 with
parent 1) the aggregation trace holds both locks at once after taking the
parent lock, because the deferred unlock of the child only runs after the
recursion into the parent returns; the claim that a task never holds two group
locks simultaneously is therefore false. -/
theorem updateChain_holds_two_locks :
    updateChainTrace [0, 1] =
      [.lock 0, .mutate 0, .lock 1, .mutate 1, .unlock 1, .unlock 0] ∧
    1 < maxHeld (updateChainTrace [0, 1]) 0 := by
  constructor
  · rfl
  · decide

theorem runTrace_append (a b : List LockEvent) (held : List Nat) :
    runTrace (a ++ b) held = (runTrace a held).bind (runTrace b) := by
  induction a generalizing held with
  | nil => simp [runTrace]
  | cons e rest ih =>
    cases e with
    | lock g =>
      by_cases hg : g ∈ held
      · simp [runTrace, hg]
      · simp [runTrace, hg, ih]
    | mutate g =>
      by_cases hg : held.head? = some g
      · simp [runTrace, hg, ih]
      · simp [runTrace, hg]
    | unlock g =>
      by_cases hg : held.head? = some g
      · simp [runTrace, hg, ih]
      · simp [runTrace, hg]

theorem runTrace_updateChain (chain : List Nat) (held : List Nat)
    (hnd : chain.Nodup) (hdisj : ∀ g ∈ chain, g ∉ held) :
    runTrace (updateChainTrace chain) held = some held := by
  induction chain generalizing held with
  | nil => rfl
  | cons g parents ih =>
    have hg : g ∉ held := hdisj g (List.mem_cons_self g parents)
    have hnd2 : parents.Nodup := (List.nodup_cons.mp hnd).2
    have hgp : g ∉ parents := (List.nodup_cons.mp hnd).1
    show runTrace
        (.lock g :: .mutate g :: (updateChainTrace parents ++ [.unlock g])) held =
      some held
    rw [runTrace, if_neg hg, runTrace,
      if_pos (show (g :: held).head? = some g from rfl), runTrace_append]
    have hrec : runTrace (updateChainTrace parents) (g :: held) = some (g :: held) := by
      apply ih (g :: held) hnd2
      intro x hx
      simp only [List.mem_cons, not_or]
      exact ⟨fun hxg => hgp (hxg ▸ hx), hdisj x (List.mem_cons_of_mem g hx)⟩
    rw [hrec]
    simp [runTrace]

theorem endHeld_append (a b : List LockEvent) (n : Nat) :
    endHeld (a ++ b) n = endHeld b (endHeld a n) := by
  induction a generalizing n with
  | nil => rfl
  | cons e rest ih => simp [endHeld, ih]

theorem le_maxHeld (es : List LockEvent) (n : Nat) : n ≤ maxHeld es n := by
  cases es with
  | nil => exact le_rfl
  | cons e rest => exact le_max_left n _

theorem maxHeld_append (a b : List LockEvent) (n : Nat) :
    maxHeld (a ++ b) n = max (maxHeld a n) (maxHeld b (endHeld a n)) := by
  induction a generalizing n with
  | nil =>
    simp only [List.nil_append, maxHeld, endHeld]
    exact (max_eq_right (le_maxHeld b n)).symm
  | cons e rest ih =>
    show max n (maxHeld (rest ++ b) (stepHeld e n)) =
      max (max n (maxHeld rest (stepHeld e n))) (maxHeld b (endHeld rest (stepHeld e n)))
    rw [ih]
    omega

theorem endHeld_updateChain (chain : List Nat) (n : Nat) :
    endHeld (updateChainTrace chain) n = n := by
  induction chain generalizing n with
  | nil => rfl
  | cons g parents ih =>
    show endHeld (updateChainTrace parents ++ [.unlock g]) (n + 1) = n
    rw [endHeld_append, ih]
    rfl

theorem maxHeld_updateChain (chain : List Nat) (n : Nat) :
    maxHeld (updateChainTrace chain) n = n + chain.length := by
  induction chain generalizing n with
  | nil => rfl
  | cons g parents ih =>
    show max n (max (n + 1) (maxHeld (updateChainTrace parents ++ [.unlock g]) (n + 1))) =
      n + (g :: parents).length
    rw [maxHeld_append, ih, endHeld_updateChain]
    simp only [maxHeld, stepHeld, List.length_cons]
    omega

/-- C9 amended: during one upward aggregation call the task holds the locks of
the owning group and of every ancestor it has reached simultaneously: locks
are acquired in child-to-parent order up the chain, so that at the root all
locks of the chain are held at once, and the deferred unlocks then release
them in the reverse order; the replay succeeds (each lock is taken once, each
mutation happens under the lock of the group it touches, each unlock releases
the most recently acquired lock) and no lock remains held at the end.
Deadlock freedom comes from this consistent child-before-parent acquisition
order, not from never holding two locks. -/
theorem updateChain_lock_discipline_amended (chain : List Nat) (h : chain.Nodup) :
    runTrace (updateChainTrace chain) [] = some [] ∧
    maxHeld (updateChainTrace chain) 0 = chain.length := by
  refine ⟨runTrace_updateChain chain [] h ?_, ?_⟩
  · intro g _
    exact List.not_mem_nil g
  · simpa using maxHeld_updateChain chain 0

/-- Witness for C9 at the two-group chain. -/
theorem updateChain_lock_discipline_amended_witness :
    ([0, 1] : List Nat).Nodup ∧
    (runTrace (updateChainTrace [0, 1]) [] = some [] ∧
      maxHeld (updateChainTrace [0, 1]) 0 = 2) :=
  ⟨by decide, updateChain_lock_discipline_amended [0, 1] (by decide)⟩

/-- Loop body of GetGroupByName over the immediate child groups: return the
first group whose GroupId equals the name, nil when the loop falls through. -/
def findGroup : List BuiltGroup → String → Option BuiltGroup
  | [], _ => none
  | g :: gs, name => if g.groupId == name then some g else findGroup gs name

/-- Model of ResultGroup.GetGroupByName. -/
def getGroupByName (r : BuiltGroup) (name : String) : Option BuiltGroup :=
  findGroup r.groups name

/-- Loop body of GetChildGroupByName over a list of child groups: for each
group in order, return it if its GroupId matches, otherwise search its own
child groups recursively, and only then move on to the next sibling. -/
def findChildGroup : List BuiltGroup → String → Option BuiltGroup
  | [], _ => none
  | .mk gid runs inner :: gs, name =>
    if gid == name then some (.mk gid runs inner)
    else
      match findChildGroup inner name with
      | some child => some child
      | none => findChildGroup gs name

/-- Model of ResultGroup.GetChildGroupByName. -/
def getChildGroupByName (r : BuiltGroup) (name : String) : Option BuiltGroup :=
  findChildGroup r.groups name

/-- Loop body of GetControlRunByName over the direct ControlRuns (represented
by their control names). -/
def findRun : List String → String → Option String
  | [], _ => none
  | n :: ns, name => if n == name then some n else findRun ns name

/-- Model of ResultGroup.GetControlRunByName. -/
def getControlRunByName (r : BuiltGroup) (name : String) : Option String :=
  findRun r.controlRuns name

mutual

/-- Depth-first pre-order enumeration of all strict descendants of a group,
written from the wording of the claim: each child group is listed before its
own descendants, siblings in order. -/
def preOrderDescendants : BuiltGroup → List BuiltGroup
  | .mk _ _ gs => preOrderList gs

/-- List version of preOrderDescendants. -/
def preOrderList : List BuiltGroup → List BuiltGroup
  | [] => []
  | g :: gs => g :: (preOrderDescendants g ++ preOrderList gs)

end

theorem findGroup_eq_find (gs : List BuiltGroup) (name : String) :
    findGroup gs name = gs.find? (fun g => g.groupId == name) := by
  induction gs with
  | nil => rfl
  | cons g gs ih =>
    by_cases h : g.groupId == name
    · simp [findGroup, List.find?_cons, h]
    · simp only [Bool.not_eq_true] at h
      simp [findGroup, List.find?_cons, h, ih]

theorem findRun_eq_find (ns : List String) (name : String) :
    findRun ns name = ns.find? (fun n => n == name) := by
  induction ns with
  | nil => rfl
  | cons n ns ih =>
    by_cases h : n == name
    · simp [findRun, List.find?_cons, h]
    · simp only [Bool.not_eq_true] at h
      simp [findRun, List.find?_cons, h, ih]

theorem findChildGroup_eq_find :
    ∀ (gs : List BuiltGroup) (name : String),
      findChildGroup gs name = (preOrderList gs).find? (fun g => g.groupId == name)
  | [], name => by simp [findChildGroup, preOrderList]
  | .mk gid runs inner :: gs, name => by
    simp only [findChildGroup, preOrderList, preOrderDescendants]
    by_cases h : gid == name
    · rw [if_pos h, List.find?_cons_of_pos _ (by simpa [BuiltGroup.groupId] using h)]
    · rw [if_neg (by simpa using h),
        List.find?_cons_of_neg _ (by simpa [BuiltGroup.groupId] using h),
        List.find?_append, findChildGroup_eq_find inner name,
        findChildGroup_eq_find gs name]
      cases (preOrderList inner).find? (fun g => g.groupId == name) with
      | none => simp
      | some c => simp

/-- C10: the lookup operations, modelled as pure functions of the tree (the
source methods only read the structure and return a pointer into it):
GetGroupByName returns the first immediate child group whose GroupId equals the
name and nil when none matches; GetChildGroupByName returns the first match of
a depth-first pre-order traversal of the descendant groups and nil when no
descendant matches; GetControlRunByName returns the first direct ControlRun
whose control name matches and nil otherwise. -/
theorem lookup_functions_characterization (r : BuiltGroup) (name : String) :
    getGroupByName r name = r.groups.find? (fun g => g.groupId == name) ∧
    getChildGroupByName r name =
      (preOrderDescendants r).find? (fun g => g.groupId == name) ∧
    getControlRunByName r name = r.controlRuns.find? (fun n => n == name) := by
  refine ⟨findGroup_eq_find r.groups name, ?_, findRun_eq_find r.controlRuns name⟩
  cases r with
  | mk gid runs gs =>
    show findChildGroup gs name = (preOrderList gs).find? (fun g => g.groupId == name)
    exact findChildGroup_eq_find gs name
